import Mathlib

/-
  Verification of the coq-lsp-pyclient proof-file engine.

  The development shallowly embeds the data structures of
  `coqlspclient/coq_lsp_structs.py` (dictionaries as association lists,
  Python object identity as references into an explicit heap, fallible
  code as `Except`), and models the components whose implementation is
  not part of the source tree (the change engine, the proof grouper and
  the term-context lookup) from the specification document.
-/

namespace CoqPyt

/-! ## Values stored in hypothesis dictionaries

A hypothesis dictionary (the `hyp` dictionaries inside `goal["hyps"]`)
maps string keys to either a string (`ty`, `def`, `definition`) or a
list of strings (`names`).  We embed Python dictionaries as association
lists with unique keys, looked up by first occurrence. -/

inductive HVal where
  | vstr (s : String)
  | vlist (l : List String)
deriving DecidableEq, Repr

/-- A Python dictionary with `HVal` values. -/
abbrev HypDict : Type := List (String × HVal)

/-- `k in d` for a Python dictionary. -/
def hContains : HypDict → String → Bool
  | [], _ => false
  | kv :: tl, k => kv.1 == k || hContains tl k

/-- `d[k]`, as an `Option` (`none` when the key is missing). -/
def hGet : HypDict → String → Option HVal
  | [], _ => none
  | kv :: tl, k => if kv.1 == k then some kv.2 else hGet tl k

/-- `d[k] = v`: replace the value at an existing key, else append. -/
def hSet (d : HypDict) (k : String) (v : HVal) : HypDict :=
  if hContains d k then
    d.map (fun kv => if kv.1 == k then (k, v) else kv)
  else
    d ++ [(k, v)]

/-- `d.pop(k)`: remove the key `k`. -/
def hPop : HypDict → String → HypDict
  | [], _ => []
  | kv :: tl, k => if kv.1 != k then kv :: hPop tl k else hPop tl k

/-! ## `Hyp`, `Goal` and `Goal.parse` (from `coq_lsp_structs.py`) -/

/-- Python errors raised by the embedded code (`Hyp(**hyp)` raises
`TypeError` when the keyword arguments do not fit the constructor). -/
inductive PyError where
  | typeError
deriving DecidableEq, Repr

/-- `class Hyp`: `names`, `ty` and an optional `definition`
(default `None`).  Python does not check the types of the values, so
both fields hold arbitrary `HVal`s. -/
structure Hyp where
  names : HVal
  ty : HVal
  definition : Option HVal
deriving DecidableEq, Repr

/-- `Hyp(**hyp)`: keyword-argument construction.  Fails when a key is
not a parameter name or when a required parameter is missing. -/
def Hyp.fromKwargs (d : HypDict) : Except PyError Hyp :=
  if d.any (fun kv => kv.1 != "names" && kv.1 != "ty" && kv.1 != "definition") then
    .error .typeError
  else
    match hGet d "names", hGet d "ty" with
    | some ns, some ty => .ok ⟨ns, ty, hGet d "definition"⟩
    | _, _ => .error .typeError

/-- `class Goal`: a list of hypotheses and a type (the code stores
`None` for the type when the `ty` key is absent). -/
structure Goal where
  hyps : List Hyp
  ty : Option String
deriving DecidableEq, Repr

/-- The input dictionary of `Goal.parse`, restricted to the two keys
the code reads: `hyps` (a list of hypothesis dictionaries) and `ty`
(a string).  `none` models key absence. -/
structure GoalDict where
  hyps : Option (List HypDict)
  ty : Option String
deriving DecidableEq, Repr

/-- The body of the `for hyp in goal["hyps"]` loop of `Goal.parse`:
`if "def" in hyp: hyp["definition"] = hyp["def"]; hyp.pop("def")`. -/
def renameDef (d : HypDict) : HypDict :=
  match hGet d "def" with
  | some v => hPop (hSet d "definition" v) "def"
  | none => d

/-- The list comprehension `[Hyp(**hyp) for hyp in goal["hyps"]]`:
build the hypotheses left to right, propagating the first `TypeError`
raised. -/
def parseHyps : List HypDict → Except PyError (List Hyp)
  | [] => .ok []
  | d :: tl =>
      match Hyp.fromKwargs d, parseHyps tl with
      | .ok h, .ok hs => .ok (h :: hs)
      | .error e, _ => .error e
      | .ok _, .error e => .error e

/-- `Goal.parse` from `coq_lsp_structs.py`: return `None` when `hyps`
is absent; otherwise rename `def` keys to `definition`, build the
`Hyp`s by keyword application, and read `ty` (defaulting to `None`). -/
def Goal.parse (g : GoalDict) : Except PyError (Option Goal) :=
  match g.hyps with
  | none => .ok none
  | some hs =>
      match parseHyps (hs.map renameDef) with
      | .ok hyps => .ok (some ⟨hyps, g.ty⟩)
      | .error e => .error e

/-- A hypothesis dictionary is well formed when it has the `names` and
`ty` keys and no key beyond `names`, `ty` and `def` — the shape the
`proof/goals` protocol delivers and `Goal.parse` is written for. -/
def wfHyp (d : HypDict) : Bool :=
  (hGet d "names").isSome && (hGet d "ty").isSome &&
    d.all (fun kv => kv.1 == "names" || kv.1 == "ty" || kv.1 == "def")

/-- The `Hyp` that `Goal.parse` is expected to build from a well-formed
hypothesis dictionary: the `def` value (if any) lands in the
`definition` field. -/
def expectedHyp (d : HypDict) : Hyp :=
  { names := (hGet d "names").getD (.vstr "")
    ty := (hGet d "ty").getD (.vstr "")
    definition := hGet d "def" }

/-! ## Heap model for Python object identity

Default argument values in Python are evaluated once, when the `def`
is elaborated, and the resulting objects are shared by every call that
omits the argument.  We model mutable lists and dictionaries as
references (`Nat`) into an explicit heap, and allocate the default
objects of `coq_lsp_structs.py` at fixed addresses, in source order:

* `lists 0` — `GoalAnswer.__init__`, `program=[]` (line 59);
* `dicts 0` / `dicts 1` / `lists 1` — `FileContext.__init__`,
  `terms={}` / `aliases={}` / `notations=[]` (line 138);
* `dicts 2` / `dicts 3` / `lists 2` — `FileContext.update` defaults
  (line 146). -/

structure Heap where
  dicts : Nat → List (String × String)
  lists : Nat → List String

def Heap.setList (h : Heap) (r : Nat) (v : List String) : Heap :=
  { h with lists := fun x => if x = r then v else h.lists x }

def Heap.setDict (h : Heap) (r : Nat) (v : List (String × String)) : Heap :=
  { h with dicts := fun x => if x = r then v else h.dicts x }

/-- The heap right after the module `coq_lsp_structs` is loaded: all
default objects freshly allocated and empty. -/
def initHeap : Heap :=
  { dicts := fun _ => [], lists := fun _ => [] }

/-- Address of the single default object for the `program` parameter of
`GoalAnswer.__init__`. -/
def goalAnswerProgramDefault : Nat := 0

def fileContextTermsDefault : Nat := 0
def fileContextAliasesDefault : Nat := 1
def fileContextNotesDefault : Nat := 1

/-! ## `GoalAnswer` (from `coq_lsp_structs.py`) -/

/-- `class GoalAnswer`: the `program` field holds a reference to a
(mutable) Python list. -/
structure GoalAnswer where
  textDocument : String
  position : Nat × Nat
  messages : List String
  goals : Option String
  error : Option String
  program : Nat
deriving DecidableEq, Repr

/-- `GoalAnswer(textDocument, position, messages, goals=None,
error=None, program=[])`: when `program` is omitted the field is bound
to the module-level default list object. -/
def mkGoalAnswer (textDocument : String) (position : Nat × Nat)
    (messages : List String) (goals : Option String) (error : Option String)
    (program : Option Nat) : GoalAnswer :=
  { textDocument := textDocument
    position := position
    messages := messages
    goals := goals
    error := error
    program := program.getD goalAnswerProgramDefault }

/-- `ga.program.append(v)`: in-place mutation of the list the
`program` attribute references. -/
def appendProgram (h : Heap) (g : GoalAnswer) (v : String) : Heap :=
  h.setList g.program (h.lists g.program ++ [v])

/-- `ga.program`: the list observed through the attribute. -/
def readProgram (h : Heap) (g : GoalAnswer) : List String :=
  h.lists g.program

/-! ## `FileContext` (from `coq_lsp_structs.py`) -/

/-- `class FileContext`: the three fields hold references to mutable
containers (`terms`/`aliases` are dictionaries, `notations` a list). -/
structure FileContext where
  terms : Nat
  aliases : Nat
  notations : Nat
deriving DecidableEq, Repr

/-- `FileContext(terms={}, aliases={}, notations=[])`: omitted
arguments are bound to the module-level default container objects. -/
def mkFileContext (terms : Option Nat) (aliases : Option Nat)
    (notations : Option Nat) : FileContext :=
  { terms := terms.getD fileContextTermsDefault
    aliases := aliases.getD fileContextAliasesDefault
    notations := notations.getD fileContextNotesDefault }

/-- `d[k] = v` on a string dictionary. -/
def dictSet (d : List (String × String)) (k v : String) :
    List (String × String) :=
  if d.any (fun kv => kv.1 == k) then
    d.map (fun kv => if kv.1 == k then (k, v) else kv)
  else
    d ++ [(k, v)]

/-- Python `d.update(other)`: set every key of `other` in `d`. -/
def dictUpdate (d other : List (String × String)) : List (String × String) :=
  other.foldl (fun acc kv => dictSet acc kv.1 kv.2) d

/-- `FileContext.update(terms, aliases, notations)`: in-place
`self.terms.update(terms)`, `self.aliases.update(aliases)`,
`self.notations.extend(notations)` through the stored references. -/
def FileContext.update (h : Heap) (fc : FileContext)
    (terms aliases : List (String × String)) (notations : List String) :
    Heap :=
  let h1 := h.setDict fc.terms (dictUpdate (h.dicts fc.terms) terms)
  let h2 := h1.setDict fc.aliases (dictUpdate (h1.dicts fc.aliases) aliases)
  h2.setList fc.notations (h2.lists fc.notations ++ notations)

/-! ## Term-context lookup of user syntax extensions

The class holding the lookup (`FileContext.get_notation` in
`coq_structs.py`) is not part of the source tree; only its tests are.
It is modelled from the specification (§4.3 and §7). -/

/-- Error kinds of `CoqError` (`CoqErrorCodes` in the source plus the
`NotationNotFound` code its tests use). -/
inductive CoqErrorCode where
  | invalidFile
  | notationNotFound
deriving DecidableEq, Repr

/-- A parsed syntax-extension record: the original sentence `text`,
the parsed `pattern` and the `scope`. -/
structure NotationTerm where
  text : String
  pattern : String
  scope : String
deriving DecidableEq, Repr

/-- A stored record is a candidate for a lookup of `p` in scope `s`
when its pattern pattern-pmatch `p` and its scope pmatch `s` (an
empty scope pmatch any lookup scope; otherwise scopes must be
equal).  The pattern-match itself is delegated to `pmatch`. -/
def candidateFor (pmatch : String → String → Bool) (p s : String)
    (n : NotationTerm) : Bool :=
  pmatch n.pattern p && (n.scope == "" || n.scope == s)

/-- Modelled from the spec: `FileContext.get_notation(pattern, scope)`
(implementation not under `src/`): return the most recent stored
record that is a candidate for the lookup; fail with
`NotationNotFound` when no candidate exists. -/
def get_notation (pmatch : String → String → Bool)
    (notations : List NotationTerm) (p s : String) :
    Except CoqErrorCode NotationTerm :=
  match notations.reverse.find? (candidateFor pmatch p s) with
  | some n => .ok n
  | none => .error .notationNotFound

/-! ## Proof grouping

The proof grouper (`ProofFile` in `proof_file.py`) is not part of the
source tree; only its tests are.  It is modelled from the
specification (§4.4): a state machine over classified sentences. -/

/-- The classification of a sentence, extracted from its span
(`SpanKind` in the spec's design notes).  An obligation sentence
carries the text of its originating `Program Definition`. -/
inductive SpanKind where
  | opener
  | closer
  | abortKind
  | tactic
  | obligation (parent : String)
  | programDef
  | other
deriving DecidableEq, Repr

/-- One step of the file: its exact source text, its classification
and the goal snapshot attached by the goal attacher (opaque here). -/
structure Step where
  text : String
  kind : SpanKind
  goals : Option String
deriving DecidableEq, Repr

/-- A proof under construction or finished: the opener sentence text
and the inner steps collected so far. -/
structure ProofB where
  text : String
  steps : List Step
deriving DecidableEq, Repr

/-- The grouper state: the stack of currently open proofs (innermost
first) and the finished proofs in order of closing. -/
structure GState where
  stack : List ProofB
  proofs : List ProofB
deriving DecidableEq, Repr

/-- Modelled from the spec: one transition of the proof-boundary state
machine (§4.4).  An opener pushes a new open proof; a closer pops the
innermost open proof into `proofs`; `Abort` pops without recording; an
inner sentence is appended to the innermost open proof; an obligation
opens a fresh proof whose opener text is the originating
`Program Definition` sentence. -/
def groupStep (st : GState) (s : Step) : GState :=
  match s.kind with
  | .opener => { st with stack := ⟨s.text, []⟩ :: st.stack }
  | .obligation parent => { st with stack := ⟨parent, []⟩ :: st.stack }
  | .closer =>
      match st.stack with
      | [] => st
      | p :: rest => { stack := rest, proofs := st.proofs ++ [p] }
  | .abortKind =>
      match st.stack with
      | [] => st
      | _ :: rest => { st with stack := rest }
  | .tactic =>
      match st.stack with
      | [] => st
      | p :: rest => { st with stack := { p with steps := p.steps ++ [s] } :: rest }
  | .programDef => st
  | .other => st

/-- Run the proof grouper over a sentence sequence. -/
def groupSteps (steps : List Step) : GState :=
  steps.foldl groupStep ⟨[], []⟩

/-- The finished proofs of a sentence sequence, in closing order. -/
def proofsOf (steps : List Step) : List ProofB :=
  (groupSteps steps).proofs

/-- The still-open proofs of a sentence sequence, in opening order. -/
def openProofsOf (steps : List Step) : List ProofB :=
  (groupSteps steps).stack.reverse

/-! ## The proof-file state and the change engine

The change engine (`add_step` / `delete_step` / `change_steps` of
`ProofFile`) is not part of the source tree; only its tests are.  It
is modelled from the specification (§4.6, §4.7, §7).  The language
server is abstracted as a validation oracle mapping the staged full
text to a verdict. -/

/-- One diagnostic record reported by the server. -/
structure Diag where
  message : String
  isError : Bool
deriving DecidableEq, Repr

/-- The server verdict on a staged text: valid, or invalid together
with the diagnostic record describing the failed attempt (if any). -/
inductive Validation where
  | valid
  | invalid (d : Option Diag)

/-- The failure kinds of the mutation API (§7). -/
inductive ChangeError where
  | invalidFile
  | invalidAdd
  | invalidDelete
  | invalidStep
  | notImplemented
deriving DecidableEq, Repr

/-- The observable state of a `ProofFile`: the step list, the
`steps_taken` cursor, the on-disk text, the diagnostics and the
validity flag.  `proofs` / `open_proofs` are derived views. -/
structure PFState where
  steps : List Step
  steps_taken : Nat
  diskText : String
  diagnostics : List Diag
  is_valid : Bool
deriving DecidableEq, Repr

/-- Concatenation of all step texts (invariant: equals the on-disk
text in every reachable state). -/
def fileText (steps : List Step) : String :=
  String.join (steps.map (fun s => s.text))

/-- `textBegins pre s`: the text `s` begins with `pre` (stated on the
character lists, so that it evaluates by `decide`). -/
def textBegins (pre s : String) : Bool :=
  s.data.take pre.data.length == pre.data

/-- The proofs considered finalized: grouped over the steps taken. -/
def PFState.proofs (st : PFState) : List ProofB :=
  proofsOf (st.steps.take st.steps_taken)

/-- The proofs still open among the steps taken. -/
def PFState.openProofs (st : PFState) : List ProofB :=
  openProofsOf (st.steps.take st.steps_taken)

/-- The goal snapshot attached to each step. -/
def stepGoals (steps : List Step) : List (Option String) :=
  steps.map (fun s => s.goals)

/-- An `add_step` after step `idx` targets a position outside any
proof when no proof is open right after sentence `idx`. -/
def addOutsideProof (steps : List Step) (idx : Nat) : Bool :=
  (groupSteps (steps.take (idx + 1))).stack.isEmpty

/-- A `delete_step` of step `idx` targets a position outside any proof
when no proof is open right before sentence `idx`. -/
def deleteOutsideProof (steps : List Step) (idx : Nat) : Bool :=
  (groupSteps (steps.take idx)).stack.isEmpty

/-- The result of a mutation: the raised error (if any) and the
post-call state. -/
structure MutResult where
  error : Option ChangeError
  state : PFState
deriving DecidableEq, Repr

/-- Modelled from the spec: `ProofFile.add_step(index, text)`
(implementation not under `src/`).  Raise `InvalidFile` when the file
is already invalid; refuse edits outside any proof with
`NotImplementedError`; otherwise stage the insertion so that the new
sentence sits immediately after step `index`, sync the staged full
text, and commit on a valid verdict or roll back to the snapshot
(keeping the diagnostic of the failed attempt) and raise
`InvalidAdd`. -/
def add_step (oracle : String → Validation) (st : PFState) (idx : Nat)
    (s : Step) : MutResult :=
  if st.is_valid = false then ⟨some .invalidFile, st⟩
  else if addOutsideProof st.steps idx then ⟨some .notImplemented, st⟩
  else
    match oracle (fileText (st.steps.insertIdx (idx + 1) s)) with
    | .valid =>
        ⟨none,
          { steps := st.steps.insertIdx (idx + 1) s
            steps_taken :=
              if idx + 1 ≤ st.steps_taken then st.steps_taken + 1
              else st.steps_taken
            diskText := fileText (st.steps.insertIdx (idx + 1) s)
            diagnostics := st.diagnostics
            is_valid := true }⟩
    | .invalid d =>
        ⟨some .invalidAdd, { st with diagnostics := st.diagnostics ++ d.toList }⟩

/-- Modelled from the spec: `ProofFile.delete_step(index)`
(implementation not under `src/`).  Same protocol as `add_step`, with
removal of step `index` and `InvalidDelete` on an invalid verdict. -/
def delete_step (oracle : String → Validation) (st : PFState) (idx : Nat) :
    MutResult :=
  if st.is_valid = false then ⟨some .invalidFile, st⟩
  else if deleteOutsideProof st.steps idx then ⟨some .notImplemented, st⟩
  else
    match oracle (fileText (st.steps.eraseIdx idx)) with
    | .valid =>
        ⟨none,
          { steps := st.steps.eraseIdx idx
            steps_taken :=
              if idx < st.steps_taken then st.steps_taken - 1
              else st.steps_taken
            diskText := fileText (st.steps.eraseIdx idx)
            diagnostics := st.diagnostics
            is_valid := true }⟩
    | .invalid d =>
        ⟨some .invalidDelete, { st with diagnostics := st.diagnostics ++ d.toList }⟩

/-- One batch edit of `change_steps`. -/
inductive CoqChange where
  | add (s : Step) (after : Nat)
  | delete (idx : Nat)

/-- Apply one batch edit to a step list (indices refer to the list as
it is when the edit is applied). -/
def applyChange (steps : List Step) (c : CoqChange) : List Step :=
  match c with
  | .add s after => steps.insertIdx (after + 1) s
  | .delete idx => steps.eraseIdx idx

/-- The specific failure kind a batch edit raises (§7: `change_steps`
raises the specific Add/Delete variant). -/
def changeErrorOf (c : CoqChange) : ChangeError :=
  match c with
  | .add _ _ => .invalidAdd
  | .delete _ => .invalidDelete

/-- Modelled from the spec: the staging loop of
`ProofFile.change_steps` — apply each edit in order to the staged step
list, validating each; surface the first failure. -/
def stageChanges (oracle : String → Validation) (steps : List Step) :
    List CoqChange → Except (ChangeError × Option Diag) (List Step)
  | [] => .ok steps
  | c :: cs =>
      match oracle (fileText (applyChange steps c)) with
      | .valid => stageChanges oracle (applyChange steps c) cs
      | .invalid d => .error (changeErrorOf c, d)

/-- Modelled from the spec: `ProofFile.change_steps(changes)`
(implementation not under `src/`).  Apply the batch atomically: commit
the staged state when every edit validates, otherwise roll back fully
and surface the first failure.  There is no outside-any-proof check:
`change_steps` supports edits outside proofs. -/
def change_steps (oracle : String → Validation) (st : PFState)
    (cs : List CoqChange) : MutResult :=
  if st.is_valid = false then ⟨some .invalidFile, st⟩
  else
    match stageChanges oracle st.steps cs with
    | .ok staged =>
        ⟨none,
          { steps := staged
            steps_taken := staged.length
            diskText := fileText staged
            diagnostics := st.diagnostics
            is_valid := true }⟩
    | .error (e, d) =>
        ⟨some e, { st with diagnostics := st.diagnostics ++ d.toList }⟩

/-- Modelled from the spec: `ProofFile.exec(n)` (implementation not
under `src/`): advance or rewind the `steps_taken` cursor by `n`
sentences; the text is not altered. -/
def exec (st : PFState) (n : Int) : PFState :=
  { st with steps_taken := ((st.steps_taken : Int) + n).toNat }

/-! ## Concrete scenarios from the specification -/

/-- One closed proof of the S4 `delete_qed` file: opener, `Proof.`,
one tactic, `Qed.`. -/
def qedProof (name : String) : List Step :=
  [⟨"Theorem " ++ name ++ " : forall n:nat, 0 + n = n.", .opener, none⟩,
   ⟨"\nProof.", .tactic, none⟩,
   ⟨"\nintros n.", .tactic, some "0 + n = n"⟩,
   ⟨"\nQed.", .closer, none⟩]

/-- The S4 scenario file: four closed proofs. -/
def deleteQedSteps : List Step :=
  qedProof "delete_qed" ++ qedProof "delete_qed2" ++ qedProof "delete_qed3"
    ++ qedProof "delete_qed4"

/-- The S4 scenario state, fully stepped. -/
def deleteQedState : PFState :=
  { steps := deleteQedSteps
    steps_taken := 16
    diskText := fileText deleteQedSteps
    diagnostics := []
    is_valid := true }

/-- One obligation block of a `Program Definition`: the
`Next Obligation` opener carrying the originating sentence, the single
tactic, and the closer. -/
def obligationBlock (ptext : String) : List Step :=
  [⟨"\nNext Obligation.", .obligation ptext, none⟩,
   ⟨"\n  dummy_tactic n e.", .tactic, none⟩,
   ⟨"\nQed.", .closer, none⟩]

/-- `n` successive obligation blocks. -/
def obligationBlocks (ptext : String) : Nat → List Step
  | 0 => []
  | n + 1 => obligationBlock ptext ++ obligationBlocks ptext n

/-- A `Program Definition` sentence followed by its `n` obligations. -/
def programSteps (ptext : String) (n : Nat) : List Step :=
  ⟨ptext, .programDef, none⟩ :: obligationBlocks ptext n

/-- The proof entry each obligation yields: opener text is the
originating `Program Definition` sentence, one tactic step. -/
def obligationEntry (ptext : String) : ProofB :=
  ⟨ptext, [⟨"\n  dummy_tactic n e.", .tactic, none⟩]⟩

/-- The S5 scenario file: two proofs, each containing a nested inner
proof that is closed; the closers of the two outer proofs are the last
two sentences. -/
def nestedSteps : List Step :=
  [⟨"Theorem nested1 : forall n:nat, 0 + n = n.", .opener, none⟩,
   ⟨"\nTheorem inner1 : forall n:nat, 0 + n = n.", .opener, none⟩,
   ⟨"\nintros n.", .tactic, none⟩,
   ⟨"\nQed.", .closer, none⟩,
   ⟨"\nTheorem nested2 : forall n:nat, 0 + n = n.", .opener, none⟩,
   ⟨"\nTheorem inner2 : forall n:nat, 0 + n = n.", .opener, none⟩,
   ⟨"\nintros n.", .tactic, none⟩,
   ⟨"\nQed.", .closer, none⟩,
   ⟨"\nQed.", .closer, none⟩,
   ⟨"\nQed.", .closer, none⟩]

/-- The S5 scenario state: the cursor sits right before the two outer
closers, so two proofs are finalized and two are open. -/
def nestedState : PFState :=
  { steps := nestedSteps
    steps_taken := 8
    diskText := fileText nestedSteps
    diagnostics := []
    is_valid := true }

/-- A small valid one-proof file used as a concrete input by the
mutation witnesses. -/
def sampleSteps : List Step :=
  [⟨"Theorem plus_O_n : forall n:nat, 0 + n = n.", .opener, none⟩,
   ⟨"\nProof.", .tactic, some "forall n:nat, 0 + n = n"⟩,
   ⟨"\nintros n.", .tactic, some "0 + n = n"⟩,
   ⟨"\nreduce_eq.", .tactic, some "no goals"⟩,
   ⟨"\nQed.", .closer, none⟩]

/-- The state of the small valid file, fully stepped. -/
def sampleState : PFState :=
  { steps := sampleSteps
    steps_taken := 5
    diskText := fileText sampleSteps
    diagnostics := []
    is_valid := true }

/-! # Theorems -/

/-! ## Dictionary lemmas for `Goal.parse` -/

lemma hGet_append_left {d1 : HypDict} {k : String} {v : HVal}
    (h : hGet d1 k = some v) (d2 : HypDict) : hGet (d1 ++ d2) k = some v := by
  induction d1 with
  | nil => simp [hGet] at h
  | cons kv tl ih =>
      by_cases hk : kv.1 = k
      · simp [hGet, hk] at h
        simp [hGet, hk, h]
      · simp [hGet, hk] at h
        simp [hGet, hk, ih h]

lemma hGet_append_right {d1 : HypDict} {k : String}
    (h : hGet d1 k = none) (d2 : HypDict) : hGet (d1 ++ d2) k = hGet d2 k := by
  induction d1 with
  | nil => simp [hGet]
  | cons kv tl ih =>
      by_cases hk : kv.1 = k
      · simp [hGet, hk] at h
      · simp [hGet, hk] at h
        simp [hGet, hk, ih h]

lemma hGet_hPop_ne {k k' : String} (hne : k ≠ k') (d : HypDict) :
    hGet (hPop d k') k = hGet d k := by
  induction d with
  | nil => rfl
  | cons kv tl ih =>
      by_cases hk : kv.1 = k'
      · simp [hPop, hGet, hk, ih, (Ne.symm hne : ¬k' = k)]
      · simp [hPop, hGet, hk, ih]

lemma hContains_eq_false_hGet {d : HypDict} {k : String}
    (h : hContains d k = false) : hGet d k = none := by
  induction d with
  | nil => rfl
  | cons kv tl ih =>
      simp only [hContains, Bool.or_eq_false_iff] at h
      have hk : ¬kv.1 = k := by
        intro hc
        simp [hc] at h
      simp [hGet, hk, ih h.2]

lemma hGet_none_hContains {d : HypDict} {k : String}
    (h : hGet d k = none) : hContains d k = false := by
  induction d with
  | nil => rfl
  | cons kv tl ih =>
      by_cases hk : kv.1 = k
      · simp [hGet, hk] at h
      · simp [hGet, hk] at h
        simp [hContains, hk, ih h]

lemma keysOk_no_definition {d : HypDict}
    (h : d.all (fun kv => kv.1 == "names" || kv.1 == "ty" || kv.1 == "def") = true) :
    hContains d "definition" = false := by
  induction d with
  | nil => rfl
  | cons kv tl ih =>
      simp only [List.all_cons, Bool.and_eq_true] at h
      rw [hContains, ih h.2, Bool.or_false]
      rcases Bool.or_eq_true_iff.mp h.1 with h1 | h1
      · rcases Bool.or_eq_true_iff.mp h1 with h2 | h2
        · have heq : kv.1 = "names" := by simpa using h2
          simp [heq]
        · have heq : kv.1 = "ty" := by simpa using h2
          simp [heq]
      · have heq : kv.1 = "def" := by simpa using h1
        simp [heq]

lemma mem_hPop_subset {d : HypDict} {k : String} {kv : String × HVal}
    (h : kv ∈ hPop d k) : kv ∈ d ∧ kv.1 ≠ k := by
  induction d with
  | nil => simp [hPop] at h
  | cons kv' tl ih =>
      by_cases hk : kv'.1 = k
      · rw [hPop, if_neg (by simp [hk])] at h
        have := ih h
        exact ⟨List.mem_cons_of_mem _ this.1, this.2⟩
      · rw [hPop, if_pos (by simp [hk])] at h
        rcases List.mem_cons.mp h with h1 | h1
        · subst h1
          exact ⟨List.mem_cons_self _ _, hk⟩
        · have := ih h1
          exact ⟨List.mem_cons_of_mem _ this.1, this.2⟩

lemma mem_hContains {d : HypDict} {kv : String × HVal} (h : kv ∈ d) :
    hContains d kv.1 = true := by
  induction d with
  | nil => simp at h
  | cons kv' tl ih =>
      rcases List.mem_cons.mp h with h1 | h1
      · subst h1
        simp [hContains]
      · simp [hContains, ih h1]

lemma renameDef_none {d : HypDict} (h : hGet d "def" = none) :
    renameDef d = d := by
  unfold renameDef
  rw [h]

lemma renameDef_some {d : HypDict} {v : HVal} (h : hGet d "def" = some v) :
    renameDef d = hPop (hSet d "definition" v) "def" := by
  unfold renameDef
  rw [h]

/-- Core step for the success case of `Goal.parse`: on a well-formed
hypothesis dictionary, renaming `def` to `definition` and applying the
`Hyp` constructor by keywords yields exactly the expected `Hyp`. -/
lemma fromKwargs_renameDef {d : HypDict} (h : wfHyp d = true) :
    Hyp.fromKwargs (renameDef d) = .ok (expectedHyp d) := by
  have hw := h
  simp only [wfHyp, Bool.and_eq_true] at hw
  obtain ⟨⟨hnames, hty⟩, hkeys⟩ := hw
  have hnodefn : hContains d "definition" = false := keysOk_no_definition hkeys
  obtain ⟨vn, hvn⟩ := Option.isSome_iff_exists.mp hnames
  obtain ⟨vt, hvt⟩ := Option.isSome_iff_exists.mp hty
  cases hdef : hGet d "def" with
  | none =>
      rw [renameDef_none hdef]
      have hnodef : hContains d "def" = false := hGet_none_hContains hdef
      have hbad : d.any
          (fun kv => kv.1 != "names" && kv.1 != "ty" && kv.1 != "definition")
            = false := by
        rw [List.any_eq_false]
        intro kv hkv
        have hmem := List.all_eq_true.mp hkeys kv hkv
        rcases Bool.or_eq_true_iff.mp hmem with h1 | h1
        · rcases Bool.or_eq_true_iff.mp h1 with h2 | h2
          · have heq : kv.1 = "names" := by simpa using h2
            simp [heq]
          · have heq : kv.1 = "ty" := by simpa using h2
            simp [heq]
        · have heq : kv.1 = "def" := by simpa using h1
          exfalso
          have hcont : hContains d "def" = true := heq ▸ mem_hContains hkv
          rw [hnodef] at hcont
          exact Bool.false_ne_true hcont
      rw [Hyp.fromKwargs, if_neg (by simp [hbad]), hvn, hvt]
      rw [expectedHyp, hContains_eq_false_hGet hnodefn, hdef, hvn, hvt]
      rfl
  | some v =>
      rw [renameDef_some hdef, hSet, if_neg (by simp [hnodefn])]
      have hn : hGet (hPop (d ++ [("definition", v)]) "def") "names" = some vn := by
        rw [hGet_hPop_ne (by decide), hGet_append_left hvn]
      have ht : hGet (hPop (d ++ [("definition", v)]) "def") "ty" = some vt := by
        rw [hGet_hPop_ne (by decide), hGet_append_left hvt]
      have hd : hGet (hPop (d ++ [("definition", v)]) "def") "definition"
          = some v := by
        rw [hGet_hPop_ne (by decide),
          hGet_append_right (hContains_eq_false_hGet hnodefn)]
        simp [hGet]
      have hbad : (hPop (d ++ [("definition", v)]) "def").any
          (fun kv => kv.1 != "names" && kv.1 != "ty" && kv.1 != "definition")
            = false := by
        rw [List.any_eq_false]
        intro kv hkv
        obtain ⟨hmem, hne⟩ := mem_hPop_subset hkv
        rcases List.mem_append.mp hmem with h1 | h1
        · have hmem2 := List.all_eq_true.mp hkeys kv h1
          rcases Bool.or_eq_true_iff.mp hmem2 with h2 | h2
          · rcases Bool.or_eq_true_iff.mp h2 with h3 | h3
            · have heq : kv.1 = "names" := by simpa using h3
              simp [heq]
            · have heq : kv.1 = "ty" := by simpa using h3
              simp [heq]
          · have heq : kv.1 = "def" := by simpa using h2
            exact absurd heq hne
        · have heq : kv = ("definition", v) := by simpa using h1
          simp [heq]
      rw [Hyp.fromKwargs, if_neg (by simp [hbad]), hn, ht, hd]
      rw [expectedHyp, hvn, hvt, hdef]
      rfl

lemma parseHyps_map_renameDef {hs : List HypDict}
    (h : ∀ d ∈ hs, wfHyp d = true) :
    parseHyps (hs.map renameDef) = .ok (hs.map expectedHyp) := by
  induction hs with
  | nil => rfl
  | cons d tl ih =>
      rw [List.map_cons, List.map_cons, parseHyps,
        fromKwargs_renameDef (h d (List.mem_cons_self _ _)),
        ih (fun x hx => h x (List.mem_cons_of_mem _ hx))]

/-- C9: `Goal.parse(goal)` returns `None` exactly when the key `hyps`
is absent from the input dictionary; otherwise (on protocol-shaped
hypothesis dictionaries) it returns a `Goal` in which every hypothesis
dictionary's `def` key has been renamed to `definition` before the
`Hyp` is constructed, and whose `ty` field is `None` when the `ty` key
is absent. -/
theorem goal_parse_hyps (g : GoalDict) :
    (Goal.parse g = .ok none ↔ g.hyps = none) ∧
    (∀ hs, g.hyps = some hs → (∀ d ∈ hs, wfHyp d = true) →
      Goal.parse g = .ok (some ⟨hs.map expectedHyp, g.ty⟩)) := by
  obtain ⟨ghyps, gty⟩ := g
  have hred : ∀ (hs : List HypDict),
      Goal.parse ⟨some hs, gty⟩ =
        match parseHyps (hs.map renameDef) with
        | .ok hyps => .ok (some ⟨hyps, gty⟩)
        | .error e => .error e := fun _ => rfl
  constructor
  · constructor
    · intro h
      cases ghyps with
      | none => rfl
      | some hs =>
          exfalso
          rw [hred hs] at h
          cases hm : parseHyps (hs.map renameDef) with
          | ok hyps =>
              rw [hm] at h
              exact Option.some_ne_none _ (Except.ok.inj h)
          | error e =>
              rw [hm] at h
              exact Except.noConfusion h
    · intro h
      dsimp only at h
      subst h
      rfl
  · intro hs hh hwf
    dsimp only at hh
    subst hh
    rw [hred hs, parseHyps_map_renameDef hwf]

/-- Witness for C9: a concrete goal dictionary whose single hypothesis
carries a `def` key, and a concrete dictionary without `hyps`. -/
theorem goal_parse_hyps_witness :
    Goal.parse ⟨some [[("names", .vlist ["n"]), ("ty", .vstr "nat"),
        ("def", .vstr "0")]], some "0 + n = n"⟩ =
      .ok (some ⟨[⟨.vlist ["n"], .vstr "nat", some (.vstr "0")⟩],
        some "0 + n = n"⟩) ∧
    Goal.parse ⟨none, some "0 + n = n"⟩ = .ok none := by
  constructor
  · exact (goal_parse_hyps ⟨some [[("names", .vlist ["n"]), ("ty", .vstr "nat"),
      ("def", .vstr "0")]], some "0 + n = n"⟩).2 _ rfl (by decide)
  · exact (goal_parse_hyps ⟨none, some "0 + n = n"⟩).1.mpr rfl

/-! ## Default-argument aliasing -/

/-- C10: every `GoalAnswer` constructed without an explicit `program`
argument holds a reference to one and the same default list object, so
an in-place mutation of the `program` attribute of one such instance
is observed through every other such instance. -/
theorem goalAnswer_shared_default_program
    (td₁ td₂ : String) (pos₁ pos₂ : Nat × Nat) (m₁ m₂ : List String)
    (gl₁ gl₂ er₁ er₂ : Option String) (g₁ g₂ : GoalAnswer)
    (h₁ : g₁ = mkGoalAnswer td₁ pos₁ m₁ gl₁ er₁ none)
    (h₂ : g₂ = mkGoalAnswer td₂ pos₂ m₂ gl₂ er₂ none) :
    g₁.program = g₂.program ∧
    ∀ (h : Heap) (v : String),
      readProgram (appendProgram h g₁ v) g₂ = readProgram h g₂ ++ [v] := by
  subst h₁
  subst h₂
  refine ⟨rfl, ?_⟩
  intro h v
  simp [readProgram, appendProgram, Heap.setList, mkGoalAnswer]

/-- Witness for C10: two concrete `GoalAnswer`s built without a
`program` argument observe the same list, into which an append through
the first is visible through the second. -/
theorem goalAnswer_shared_default_program_witness :
    (mkGoalAnswer "file://a.v" (0, 0) [] none none none).program
      = (mkGoalAnswer "file://b.v" (1, 2) ["msg"] none none none).program ∧
    readProgram
        (appendProgram initHeap
          (mkGoalAnswer "file://a.v" (0, 0) [] none none none) "obl")
        (mkGoalAnswer "file://b.v" (1, 2) ["msg"] none none none)
      = readProgram initHeap
          (mkGoalAnswer "file://b.v" (1, 2) ["msg"] none none none) ++ ["obl"] := by
  have h := goalAnswer_shared_default_program "file://a.v" "file://b.v"
    (0, 0) (1, 2) [] ["msg"] none none none none _ _ rfl rfl
  exact ⟨h.1, h.2 initHeap "obl"⟩

/-- C2 fails on the code: two `FileContext` instances constructed with
default arguments share the default containers, so an `update` through
the first is observed through the second (which observed empty
containers before the call).  The containers are therefore not
distinct objects. -/
theorem fileContext_shared_default_containers :
    (initHeap.dicts (mkFileContext none none none).terms = [] ∧
      initHeap.dicts (mkFileContext none none none).aliases = [] ∧
      initHeap.lists (mkFileContext none none none).notations = []) ∧
    ((FileContext.update initHeap (mkFileContext none none none)
        [("plus_O_n", "Lemma plus_O_n : forall n:nat, 0 + n = n.")]
        [("plus", "Nat.add")] ["Reserved plus"]).dicts
          (mkFileContext none none none).terms
      = [("plus_O_n", "Lemma plus_O_n : forall n:nat, 0 + n = n.")] ∧
    (FileContext.update initHeap (mkFileContext none none none)
        [("plus_O_n", "Lemma plus_O_n : forall n:nat, 0 + n = n.")]
        [("plus", "Nat.add")] ["Reserved plus"]).dicts
          (mkFileContext none none none).aliases
      = [("plus", "Nat.add")] ∧
    (FileContext.update initHeap (mkFileContext none none none)
        [("plus_O_n", "Lemma plus_O_n : forall n:nat, 0 + n = n.")]
        [("plus", "Nat.add")] ["Reserved plus"]).lists
          (mkFileContext none none none).notations
      = ["Reserved plus"]) := by
  constructor
  · exact ⟨rfl, rfl, rfl⟩
  · refine ⟨?_, ?_, ?_⟩ <;> rfl

/-! ## Most-recent lookup of syntax extensions -/

lemma find?_eq_some_split {α : Type} (p : α → Bool) :
    ∀ (l : List α) (a : α), l.find? p = some a →
      p a = true ∧ ∃ l1 l2, l = l1 ++ a :: l2 ∧ ∀ x ∈ l1, p x = false := by
  intro l
  induction l with
  | nil =>
      intro a h
      simp [List.find?] at h
  | cons b tl ih =>
      intro a h
      cases hb : p b with
      | true =>
          rw [List.find?] at h
          rw [hb] at h
          have hba : b = a := Option.some.inj h
          subst hba
          exact ⟨hb, [], tl, rfl, by simp⟩
      | false =>
          rw [List.find?] at h
          rw [hb] at h
          obtain ⟨hpa, l1, l2, heq, hl1⟩ := ih a h
          refine ⟨hpa, b :: l1, l2, by rw [List.cons_append, heq], ?_⟩
          intro x hx
          rcases List.mem_cons.mp hx with h1 | h1
          · rw [h1]
            exact hb
          · exact hl1 x h1

/-- C5: the lookup returns the most recent stored record whose pattern
matches the lookup pattern and whose scope matches the lookup scope
(empty stored scope matches any lookup scope, otherwise the scopes
must be equal), and fails with `NotationNotFound` exactly when no
candidate exists. -/
theorem lookup_most_recent_matching (pmatch : String → String → Bool)
    (notations : List NotationTerm) (p s : String) :
    ( get_notation pmatch notations p s = .error .notationNotFound ↔
      ∀ n ∈ notations, candidateFor pmatch p s n = false) ∧
    (∀ n, get_notation pmatch notations p s = .ok n →
      candidateFor pmatch p s n = true ∧
      ∃ pre post, notations = pre ++ n :: post ∧
        ∀ m ∈ post, candidateFor pmatch p s m = false) := by
  constructor
  · constructor
    · intro h n hn
      cases hf : notations.reverse.find? (candidateFor pmatch p s) with
      | some n' =>
          rw [ get_notation, hf] at h
          exact Except.noConfusion h
      | none =>
          have := List.find?_eq_none.mp hf n (List.mem_reverse.mpr hn)
          simpa using this
    · intro h
      have hf : notations.reverse.find? (candidateFor pmatch p s) = none :=
        List.find?_eq_none.mpr
          (fun n hn hc => by rw [h n (List.mem_reverse.mp hn)] at hc; cases hc)
      rw [ get_notation, hf]
  · intro n h
    cases hf : notations.reverse.find? (candidateFor pmatch p s) with
    | none =>
        rw [ get_notation, hf] at h
        exact Except.noConfusion h
    | some n' =>
        rw [ get_notation, hf] at h
        have hnn : n' = n := Except.ok.inj h
        subst hnn
        obtain ⟨hpa, l1, l2, hsplit, hl1⟩ :=
          find?_eq_some_split (candidateFor pmatch p s) notations.reverse n' hf
        refine ⟨hpa, l2.reverse, l1.reverse, ?_, ?_⟩
        · conv_lhs => rw [← List.reverse_reverse notations]
          rw [hsplit]
          simp
        · intro m hm
          exact hl1 m (by simpa using hm)

/-- Witness for C5: among two stored records with pattern `p`, the
lookup of `p` in scope `s2` returns the more recent one (whose empty
scope matches any lookup scope). -/
theorem lookup_most_recent_matching_witness :
    candidateFor (fun a b => a == b) "p" "s2" ⟨"N2", "p", ""⟩ = true ∧
    ∃ pre post,
      [(⟨"N1", "p", "s1"⟩ : NotationTerm), ⟨"N2", "p", ""⟩]
        = pre ++ (⟨"N2", "p", ""⟩ : NotationTerm) :: post ∧
      ∀ m ∈ post, candidateFor (fun a b => a == b) "p" "s2" m = false :=
  (lookup_most_recent_matching (fun a b => a == b)
    [⟨"N1", "p", "s1"⟩, ⟨"N2", "p", ""⟩] "p" "s2").2 ⟨"N2", "p", ""⟩ rfl

/-! ## Proof grouping scenarios -/

set_option maxRecDepth 4000 in
/-- C6: in a file with four closed proofs, deleting the step holding
the `Qed.` of proof 0 moves that proof from `proofs` to `open_proofs`:
afterwards there are 3 finalized proofs and 1 open proof, and the open
proof's text begins with `Theorem delete_qed`. -/
theorem delete_qed_opens_proof :
    deleteQedState.proofs.length = 4 ∧
    deleteQedState.openProofs.length = 0 ∧
    (delete_step (fun _ => .valid) deleteQedState 3).error = none ∧
    (delete_step (fun _ => .valid) deleteQedState 3).state.proofs.length = 3 ∧
    (delete_step (fun _ => .valid) deleteQedState 3).state.openProofs.length = 1 ∧
    textBegins "Theorem delete_qed"
      ((delete_step (fun _ => .valid) deleteQedState 3).state.openProofs.headD
        ⟨"", []⟩).text = true := by
  decide

lemma obligationBlocks_foldl (ptext : String) :
    ∀ (n : Nat) (ps : List ProofB),
      (obligationBlocks ptext n).foldl groupStep ⟨[], ps⟩ =
        ⟨[], ps ++ List.replicate n (obligationEntry ptext)⟩ := by
  intro n
  induction n with
  | zero =>
      intro ps
      simp [obligationBlocks]
  | succ n ih =>
      intro ps
      rw [obligationBlocks, List.foldl_append]
      have hblock : (obligationBlock ptext).foldl groupStep ⟨[], ps⟩ =
          ⟨[], ps ++ [obligationEntry ptext]⟩ := rfl
      rw [hblock, ih]
      rw [List.replicate_succ]
      simp

/-- C7: a `Program Definition` producing `n` obligations yields `n`
proof entries, each with text equal to the originating
`Program Definition` sentence and each with exactly one step whose
text is `"\n  dummy_tactic n e."`; no proof is left open. -/
theorem obligations_yield_shared_opener (ptext : String) (n : Nat) :
    (proofsOf (programSteps ptext n)).length = n ∧
    (∀ pr ∈ proofsOf (programSteps ptext n),
      pr.text = ptext ∧
      pr.steps.map (fun s => s.text) = ["\n  dummy_tactic n e."]) ∧
    openProofsOf (programSteps ptext n) = [] := by
  have hkey : groupSteps (programSteps ptext n) =
      ⟨[], List.replicate n (obligationEntry ptext)⟩ := by
    rw [groupSteps, programSteps, List.foldl_cons]
    exact obligationBlocks_foldl ptext n []
  refine ⟨?_, ?_, ?_⟩
  · rw [proofsOf, hkey]
    simp
  · intro pr hpr
    rw [proofsOf, hkey] at hpr
    have hpr2 := List.eq_of_mem_replicate hpr
    rw [hpr2]
    exact ⟨rfl, rfl⟩
  · rw [openProofsOf, hkey]
    rfl

/-- Witness for C7: the concrete `Program Definition id` sentence with
two obligations; the proof entry is a member and has the claimed
shape. -/
theorem obligations_yield_shared_opener_witness :
    (obligationEntry "Program Definition id (n : nat) : ∗ := S (pred n).").text
      = "Program Definition id (n : nat) : ∗ := S (pred n)." ∧
    (obligationEntry
        "Program Definition id (n : nat) : ∗ := S (pred n).").steps.map
          (fun s => s.text)
      = ["\n  dummy_tactic n e."] :=
  (obligations_yield_shared_opener
    "Program Definition id (n : nat) : ∗ := S (pred n)." 2).2.1
    (obligationEntry "Program Definition id (n : nat) : ∗ := S (pred n).")
    (by decide)

/-- C8: on the nested-proofs file with both closing sentences present,
`exec (+2)` ends with 4 finalized proofs and 0 open proofs, a
subsequent `exec (-2)` returns the counts to 2 and 2, and `exec` moves
only the `steps_taken` cursor: the step list and the file text are
never altered. -/
theorem exec_nested_proofs :
    (nestedState.proofs.length = 2 ∧ nestedState.openProofs.length = 2) ∧
    ((exec nestedState 2).proofs.length = 4 ∧
      (exec nestedState 2).openProofs.length = 0) ∧
    ((exec (exec nestedState 2) (-2)).proofs.length = 2 ∧
      (exec (exec nestedState 2) (-2)).openProofs.length = 2) ∧
    (∀ (st : PFState) (k : Int),
      (exec st k).steps = st.steps ∧ (exec st k).diskText = st.diskText ∧
        fileText (exec st k).steps = fileText st.steps) := by
  refine ⟨by decide, by decide, by decide, ?_⟩
  intro st k
  exact ⟨rfl, rfl, rfl⟩

/-! ## Rollback on failed mutations -/

/-- C1: for every failed `add_step` or `delete_step` (one raising an
invalid-add / invalid-delete / invalid-step error), the post-call step
list, derived `proofs` and `open_proofs`, per-step goals, validity
flag and on-disk text are identical to their pre-call values; the only
delta is that the diagnostics list may grow by at most one record (the
number of invalid edits attempted) describing the failed attempt. -/
theorem failed_mutation_rollback (oracle : String → Validation)
    (st : PFState) (idx : Nat) (s : Step) (r : MutResult)
    (hr : r = add_step oracle st idx s ∨ r = delete_step oracle st idx)
    (he : r.error = some .invalidAdd ∨ r.error = some .invalidDelete ∨
      r.error = some .invalidStep) :
    r.state.steps = st.steps ∧
    r.state.proofs = st.proofs ∧
    r.state.openProofs = st.openProofs ∧
    stepGoals r.state.steps = stepGoals st.steps ∧
    r.state.is_valid = st.is_valid ∧
    r.state.diskText = st.diskText ∧
    ∃ extra, r.state.diagnostics = st.diagnostics ++ extra ∧
      extra.length ≤ 1 := by
  rcases hr with rfl | rfl
  · by_cases hv : st.is_valid = false
    · have heq : add_step oracle st idx s = ⟨some .invalidFile, st⟩ := by
        rw [add_step, if_pos hv]
      rw [heq] at he
      simp at he
    · by_cases ho : addOutsideProof st.steps idx = true
      · have heq : add_step oracle st idx s = ⟨some .notImplemented, st⟩ := by
          rw [add_step, if_neg hv, if_pos ho]
        rw [heq] at he
        simp at he
      · cases horc : oracle (fileText (st.steps.insertIdx (idx + 1) s)) with
        | valid =>
            have heq : (add_step oracle st idx s).error = none := by
              rw [add_step, if_neg hv, if_neg ho, horc]
            rw [heq] at he
            simp at he
        | invalid d =>
            have heq : add_step oracle st idx s = ⟨some .invalidAdd,
                { st with diagnostics := st.diagnostics ++ d.toList }⟩ := by
              rw [add_step, if_neg hv, if_neg ho, horc]
            rw [heq]
            refine ⟨rfl, rfl, rfl, rfl, rfl, rfl, d.toList, rfl, ?_⟩
            cases d <;> simp
  · by_cases hv : st.is_valid = false
    · have heq : delete_step oracle st idx = ⟨some .invalidFile, st⟩ := by
        rw [delete_step, if_pos hv]
      rw [heq] at he
      simp at he
    · by_cases ho : deleteOutsideProof st.steps idx = true
      · have heq : delete_step oracle st idx = ⟨some .notImplemented, st⟩ := by
          rw [delete_step, if_neg hv, if_pos ho]
        rw [heq] at he
        simp at he
      · cases horc : oracle (fileText (st.steps.eraseIdx idx)) with
        | valid =>
            have heq : (delete_step oracle st idx).error = none := by
              rw [delete_step, if_neg hv, if_neg ho, horc]
            rw [heq] at he
            simp at he
        | invalid d =>
            have heq : delete_step oracle st idx = ⟨some .invalidDelete,
                { st with diagnostics := st.diagnostics ++ d.toList }⟩ := by
              rw [delete_step, if_neg hv, if_neg ho, horc]
            rw [heq]
            refine ⟨rfl, rfl, rfl, rfl, rfl, rfl, d.toList, rfl, ?_⟩
            cases d <;> simp

/-- Witness for C1: a concrete invalid `add_step` on the small valid
file rolls everything back, growing the diagnostics by one record. -/
theorem failed_mutation_rollback_witness :
    (add_step (fun _ => .invalid (some ⟨"invalid_tactic not found", true⟩))
        sampleState 1 ⟨"\ninvalid_tactic.", .tactic, none⟩).state.steps
      = sampleState.steps ∧
    (add_step (fun _ => .invalid (some ⟨"invalid_tactic not found", true⟩))
        sampleState 1 ⟨"\ninvalid_tactic.", .tactic, none⟩).state.proofs
      = sampleState.proofs ∧
    (add_step (fun _ => .invalid (some ⟨"invalid_tactic not found", true⟩))
        sampleState 1 ⟨"\ninvalid_tactic.", .tactic, none⟩).state.openProofs
      = sampleState.openProofs ∧
    stepGoals (add_step (fun _ => .invalid (some ⟨"invalid_tactic not found",
        true⟩)) sampleState 1 ⟨"\ninvalid_tactic.", .tactic, none⟩).state.steps
      = stepGoals sampleState.steps ∧
    (add_step (fun _ => .invalid (some ⟨"invalid_tactic not found", true⟩))
        sampleState 1 ⟨"\ninvalid_tactic.", .tactic, none⟩).state.is_valid
      = sampleState.is_valid ∧
    (add_step (fun _ => .invalid (some ⟨"invalid_tactic not found", true⟩))
        sampleState 1 ⟨"\ninvalid_tactic.", .tactic, none⟩).state.diskText
      = sampleState.diskText ∧
    ∃ extra,
      (add_step (fun _ => .invalid (some ⟨"invalid_tactic not found", true⟩))
          sampleState 1 ⟨"\ninvalid_tactic.", .tactic, none⟩).state.diagnostics
        = sampleState.diagnostics ++ extra ∧ extra.length ≤ 1 :=
  failed_mutation_rollback
    (fun _ => .invalid (some ⟨"invalid_tactic not found", true⟩))
    sampleState 1 ⟨"\ninvalid_tactic.", .tactic, none⟩ _ (Or.inl rfl)
    (Or.inl rfl)

/-! ## Insertion position of `add_step` -/

lemma add_step_ok_steps (oracle : String → Validation) (st : PFState)
    (idx : Nat) (s : Step)
    (hok : (add_step oracle st idx s).error = none) :
    (add_step oracle st idx s).state.steps = st.steps.insertIdx (idx + 1) s := by
  by_cases hv : st.is_valid = false
  · rw [add_step, if_pos hv] at hok ⊢
    exact absurd hok (by simp)
  · by_cases ho : addOutsideProof st.steps idx = true
    · rw [add_step, if_neg hv, if_pos ho] at hok ⊢
      exact absurd hok (by simp)
    · cases horc : oracle (fileText (st.steps.insertIdx (idx + 1) s)) with
      | valid => rw [add_step, if_neg hv, if_neg ho, horc]
      | invalid d =>
          rw [add_step, if_neg hv, if_neg ho, horc] at hok
          exact absurd hok (by simp)

/-- C3: for every `add_step` that commits on a valid file, the
inserted sentence becomes step `index + 1`, the steps up to `index`
are unchanged, and every later step shifts up by one position. -/
theorem add_step_inserts_immediately_after (oracle : String → Validation)
    (st : PFState) (idx : Nat) (s : Step)
    (hval : st.is_valid = true)
    (hidx : idx < st.steps.length)
    (hok : (add_step oracle st idx s).error = none) :
    (add_step oracle st idx s).state.steps.length = st.steps.length + 1 ∧
    (add_step oracle st idx s).state.steps[idx + 1]? = some s ∧
    (∀ j, j ≤ idx → (add_step oracle st idx s).state.steps[j]?
      = st.steps[j]?) ∧
    (∀ j, idx < j → (add_step oracle st idx s).state.steps[j + 1]?
      = st.steps[j]?) := by
  have hsteps := add_step_ok_steps oracle st idx s hok
  have hle : idx + 1 ≤ st.steps.length := hidx
  have hlen : (st.steps.insertIdx (idx + 1) s).length = st.steps.length + 1 :=
    List.length_insertIdx _ _ hle
  rw [hsteps]
  refine ⟨hlen, ?_, ?_, ?_⟩
  · rw [List.getElem?_eq_getElem (by rw [hlen]; omega)]
    rw [List.getElem_insertIdx_self st.steps s (idx + 1) hle]
  · intro j hj
    have hjb : j < st.steps.length := lt_of_le_of_lt hj hidx
    rw [List.getElem?_eq_getElem (by rw [hlen]; omega),
      List.getElem?_eq_getElem hjb]
    rw [List.getElem_insertIdx_of_lt st.steps s (idx + 1) j (by omega) hjb]
  · intro j hj
    by_cases hjb : j < st.steps.length
    · obtain ⟨k, rfl⟩ : ∃ k, j = (idx + 1) + k := ⟨j - (idx + 1), by omega⟩
      rw [List.getElem?_eq_getElem (by rw [hlen]; omega),
        List.getElem?_eq_getElem hjb]
      rw [List.getElem_insertIdx_add_succ st.steps s (idx + 1) k (by omega)]
    · have h1 : (List.insertIdx (idx + 1) s st.steps)[j + 1]? = none :=
        List.getElem?_eq_none (by rw [hlen]; omega)
      have h2 : st.steps[j]? = none := List.getElem?_eq_none (by omega)
      rw [h1, h2]

/-- Witness for C3: inserting `Print plus.` after step 1 of the small
valid file puts it at position 2 and shifts step 3 to position 4. -/
theorem add_step_inserts_immediately_after_witness :
    (add_step (fun _ => .valid) sampleState 1
        ⟨"\nPrint plus.", .tactic, none⟩).state.steps.length
      = sampleState.steps.length + 1 ∧
    (add_step (fun _ => .valid) sampleState 1
        ⟨"\nPrint plus.", .tactic, none⟩).state.steps[2]?
      = some ⟨"\nPrint plus.", .tactic, none⟩ ∧
    (add_step (fun _ => .valid) sampleState 1
        ⟨"\nPrint plus.", .tactic, none⟩).state.steps[1]?
      = sampleState.steps[1]? ∧
    (add_step (fun _ => .valid) sampleState 1
        ⟨"\nPrint plus.", .tactic, none⟩).state.steps[4]?
      = sampleState.steps[3]? := by
  have h := add_step_inserts_immediately_after (fun _ => .valid) sampleState 1
    ⟨"\nPrint plus.", .tactic, none⟩ rfl (by decide) rfl
  exact ⟨h.1, h.2.1, h.2.2.1 1 (by decide), h.2.2.2 3 (by decide)⟩

/-! ## Edits outside any proof -/

lemma stageChanges_error_kind (oracle : String → Validation) :
    ∀ (cs : List CoqChange) (steps : List Step) (e : ChangeError)
      (d : Option Diag), stageChanges oracle steps cs = .error (e, d) →
        e = .invalidAdd ∨ e = .invalidDelete := by
  intro cs
  induction cs with
  | nil =>
      intro steps e d h
      exact absurd h (by simp [stageChanges])
  | cons c cs ih =>
      intro steps e d h
      rw [stageChanges] at h
      cases horc : oracle (fileText (applyChange steps c)) with
      | valid =>
          rw [horc] at h
          exact ih _ e d h
      | invalid dd =>
          rw [horc] at h
          have he : changeErrorOf c = e := congrArg Prod.fst
            (Except.error.inj h)
          rw [← he]
          cases c with
          | add s after => exact Or.inl rfl
          | delete i => exact Or.inr rfl

lemma stageChanges_all_valid :
    ∀ (cs : List CoqChange) (steps : List Step),
      stageChanges (fun _ => .valid) steps cs
        = .ok (cs.foldl applyChange steps) := by
  intro cs
  induction cs with
  | nil =>
      intro steps
      rfl
  | cons c cs ih =>
      intro steps
      rw [stageChanges, List.foldl_cons]
      exact ih (applyChange steps c)

/-- C4: on a valid file, `add_step` and `delete_step` raise
`NotImplementedError` whenever the targeted edit position falls
outside any proof, leaving the state unchanged, whereas `change_steps`
never raises it and commits any batch — including edits outside
proofs — that the server validates. -/
theorem outside_proof_edit_refusal (oracle : String → Validation)
    (st : PFState) (idx : Nat) (s : Step) (hval : st.is_valid = true) :
    (addOutsideProof st.steps idx = true →
      add_step oracle st idx s = ⟨some .notImplemented, st⟩) ∧
    (deleteOutsideProof st.steps idx = true →
      delete_step oracle st idx = ⟨some .notImplemented, st⟩) ∧
    (∀ cs, (change_steps oracle st cs).error ≠ some .notImplemented) ∧
    (∀ cs, (change_steps (fun _ => .valid) st cs).error = none) := by
  have hv : ¬st.is_valid = false := by simp [hval]
  refine ⟨?_, ?_, ?_, ?_⟩
  · intro ho
    rw [add_step, if_neg hv, if_pos ho]
  · intro ho
    rw [delete_step, if_neg hv, if_pos ho]
  · intro cs
    rw [change_steps, if_neg hv]
    cases hsc : stageChanges oracle st.steps cs with
    | ok staged => simp
    | error ed =>
        obtain ⟨e, d⟩ := ed
        rcases stageChanges_error_kind oracle cs st.steps e d hsc with rfl | rfl
          <;> simp
  · intro cs
    rw [change_steps, if_neg hv, stageChanges_all_valid cs st.steps]

/-- Witness for C4: on the small valid file, adding after the final
`Qed.` and deleting the opening statement are refused with the state
unchanged, while `change_steps` performs both kinds of edit. -/
theorem outside_proof_edit_refusal_witness :
    add_step (fun _ => .invalid none) sampleState 4
        ⟨"\nPrint plus.", .tactic, none⟩
      = ⟨some .notImplemented, sampleState⟩ ∧
    delete_step (fun _ => .invalid none) sampleState 0
      = ⟨some .notImplemented, sampleState⟩ ∧
    (change_steps (fun _ => .invalid none) sampleState
      [.delete 0]).error ≠ some .notImplemented ∧
    (change_steps (fun _ => .valid) sampleState
      [.add ⟨"\nPrint plus.", .tactic, none⟩ 4]).error = none := by
  have h1 := outside_proof_edit_refusal (fun _ => .invalid none) sampleState 4
    ⟨"\nPrint plus.", .tactic, none⟩ rfl
  have h2 := outside_proof_edit_refusal (fun _ => .invalid none) sampleState 0
    ⟨"\nPrint plus.", .tactic, none⟩ rfl
  refine ⟨h1.1 (by decide), h2.2.1 (by decide), h1.2.2.1 [.delete 0], ?_⟩
  have h3 := outside_proof_edit_refusal (fun _ => .valid) sampleState 4
    ⟨"\nPrint plus.", .tactic, none⟩ rfl
  exact h3.2.2.2 [.add ⟨"\nPrint plus.", .tactic, none⟩ 4]

end CoqPyt
